import Mathlib

/-!
Verification of the view/indexing and buffer-ownership subsystem of the
`cudarray` array handle (`src/cudarray/cudarray.py`).  The Python class
`CUDArray` is embedded shallowly: shapes are lists of integers, the device
buffer is a record carrying the allocation identity, the absolute element
offset, the element count and the stored dtype, and the indexing engine of
`__getitem__` is a recursion over the dimensions mirroring the source loop
line by line.  Python integers are unbounded, hence `Int`.
-/

namespace CudArray

/-- Element kinds.  Modelled from the spec: the constants `base.float_`,
`base.int_` and `base.bool_` (module `base` is not under `src/`) are the
canonical float, integer and boolean storage kinds, pairwise distinct from
the 64-bit host kinds and from the logical boolean kind. -/
inductive Dtype where
  | floatCanonical
  | intCanonical
  | boolStorage
  | float64
  | int64
  | boolean
  | other
deriving DecidableEq

/-- Dtype canonicalization of `CUDArray.__init__` (lines 22-28 of the
source): `float64` maps to the canonical float kind, `int64` to the
canonical integer kind, `bool` to the canonical boolean storage kind with
the `isbool` flag set; anything else passes through with the flag clear. -/
def normalizeDtype : Dtype → Dtype × Bool
  | .float64 => (.floatCanonical, false)
  | .int64 => (.intCanonical, false)
  | .boolean => (.boolStorage, true)
  | d => (d, false)

/-- Model of the external `ArrayData` device buffer handle: identity of the
underlying allocation, absolute element offset into it, element count and
stored dtype.  `owned` is true for a fresh allocation.  Modelled from the
spec: the Device Buffer interface of section 6. -/
structure ArrayData where
  bufferId : Nat
  offset : Int
  size : Int
  dtype : Dtype
  owned : Bool
deriving DecidableEq

/-- Modelled from the spec: the Device Buffer view operation
`ArrayData(size, dtype, owner, offset)` - zero copy, refcounted against the
owner, the offset composing with the owner's own offset. -/
def ArrayData.view (owner : ArrayData) (size : Int) (dtype : Dtype) (offset : Int) : ArrayData :=
  ⟨owner.bufferId, owner.offset + offset, size, dtype, false⟩

/-- Host-side dense data (`np_data`); only its element kind matters to the
claims under verification. -/
structure HostData where
  dtype : Dtype
deriving DecidableEq

/-- Python helper `_prod` (lines 223-224): `reduce(operator.mul, x, 1)`. -/
def listProd (xs : List Int) : Int := xs.foldl (· * ·) 1

/-- The array handle: logical shape, the logical-boolean flag and the
device buffer reference.  The dtype is always read from the buffer, exactly
as the `dtype` property (lines 56-58) does, so it is a function below, not a
field. -/
structure CUDArray where
  shape : List Int
  isbool : Bool
  data : ArrayData
deriving DecidableEq

/-- The `dtype` property (lines 56-58): `self._data.dtype`. -/
def CUDArray.dtype (a : CUDArray) : Dtype := a.data.dtype

/-- The `ndim` property (lines 68-70). -/
def CUDArray.ndim (a : CUDArray) : Nat := a.shape.length

/-- The `size` property (lines 72-74): `_prod(self.shape)`. -/
def CUDArray.size (a : CUDArray) : Int := listProd a.shape

/-- `CUDArray.__init__` (lines 11-34): dtype resolution (the explicit
argument, else the host data's kind, else the canonical float kind), dtype
canonicalization with the `isbool` flag, then either a fresh allocation
(`array_data is None`; `freshId` stands for the identity of the fresh
buffer) or borrowing the given buffer unchanged. -/
def CUDArray.init (shape : List Int) (dtype? : Option Dtype) (npData? : Option HostData)
    (arrayData? : Option ArrayData) (freshId : Nat) : CUDArray :=
  let d0 := match dtype? with
    | none => match npData? with
      | none => Dtype.floatCanonical
      | some nd => nd.dtype
    | some d => d
  let nd := normalizeDtype d0
  let data := match arrayData? with
    | none => (⟨freshId, 0, listProd shape, nd.1, true⟩ : ArrayData)
    | some ad => ad
  ⟨shape, nd.2, data⟩

/-- The element kind of the host array returned by `__array__`
(lines 36-41): the storage dtype, reinterpreted as boolean when the
logical-boolean flag is set. -/
def CUDArray.toHostKind (a : CUDArray) : Dtype :=
  if a.isbool then Dtype.boolean else a.dtype

/-- `CUDArray.view` (lines 80-81): `CUDArray(self.shape, self.dtype, None,
self._data)`. -/
def CUDArray.view (a : CUDArray) : CUDArray :=
  CUDArray.init a.shape (some a.dtype) none (some a.data) 0

/-- The single-integer fast path of `__getitem__` (lines 155-164). -/
def CUDArray.getitemInt (a : CUDArray) (i : Int) : CUDArray :=
  let viewShape := a.shape.tail
  let viewSize := listProd viewShape
  let offset := i * viewSize
  CUDArray.init viewShape (some a.dtype) none
    (some (ArrayData.view a.data viewSize a.dtype offset)) 0

/-- One element of an index sequence: a Python `int`, a `slice` with
optional start, stop and step, the `Ellipsis` object, or any other object
(`invalid`). -/
inductive Index where
  | int (i : Int)
  | slice (start stop step : Option Int)
  | ellipsis
  | invalid
deriving DecidableEq

/-- The two exception classes `__getitem__` raises: `IndexError` and
`NotImplementedError`. -/
inductive Err where
  | indexError
  | notImplemented
deriving DecidableEq

/-- Outcome of walking the dimensions: the final view shape and offset, an
exception, or - on an ellipsis - a restart of `__getitem__` with a rebuilt
index sequence (line 194: `return self[indices]`). -/
inductive StepOut where
  | done (viewShape : List Int) (offset : Int)
  | err (e : Err)
  | restart (ix : List Index)
deriving DecidableEq

/-- Lines 174-197: examine the index element for dimension `i` (if any) and
produce `(start, stop, append_dim)`, or end the walk early with an
exception or a restart.  The ellipsis rebuild is line 193:
`indices[:i] + [slice(None)]*diff + indices[i:]` with
`diff = ndim - len(indices)`. -/
def dimStep (ix : List Index) (ndim : Nat) (i : Nat) (dim : Int) :
    Except StepOut (Int × Int × Bool) :=
  match ix[i]? with
  | some (.int j) => .ok (j, j + 1, false)
  | some (.slice st sp stp) =>
    if stp.isSome then .error (.err .notImplemented)
    else .ok (st.getD 0, sp.getD dim, true)
  | some .ellipsis =>
    .error (.restart (ix.take i ++
      List.replicate (ndim - ix.length) (Index.slice none none none) ++ ix.drop i))
  | some .invalid => .error (.err .indexError)
  | none => .ok (0, dim, true)

/-- The dimension walk of `__getitem__` (lines 170-207): `rest` is the
remaining suffix of the shape, `i` the current dimension index, `acc` the
view shape collected so far, `contig` the `rest_must_be_contiguous` flag
and `off` the running offset.  Per dimension: `view_dim = stop - start`,
`offset = offset*dim + start`, append `view_dim` when the dimension is
retained, raise when the flag is set and `1 < view_dim < dim`, then set the
flag when `view_dim > 1`. -/
def walkFrom (ix : List Index) (ndim : Nat) :
    List Int → Nat → List Int → Bool → Int → StepOut
  | [], _, acc, _, off => .done acc off
  | dim :: rest, i, acc, contig, off =>
    match dimStep ix ndim i dim with
    | .error out => out
    | .ok (start, stop, appendDim) =>
      let viewDim := stop - start
      let off2 := off * dim + start
      let acc2 := if appendDim then acc ++ [viewDim] else acc
      if contig ∧ 1 < viewDim ∧ viewDim < dim then .err .notImplemented
      else walkFrom ix ndim rest (i + 1) acc2 (contig || decide (1 < viewDim)) off2

/-- The general path of `__getitem__` on an index sequence, with fuel
bounding the number of ellipsis restarts; `none` models a computation that
never produces a result.  Line 167 rejects too many indices before the
walk. -/
def getitemLoop : Nat → List Int → List Index → Option (Except Err (List Int × Int))
  | 0, _, _ => none
  | fuel + 1, shape, ix =>
    if ix.length > shape.length then some (.error .indexError)
    else
      match walkFrom ix shape.length shape 0 [] false 0 with
      | .done vs off => some (.ok (vs, off))
      | .err e => some (.error e)
      | .restart ix2 => getitemLoop fuel shape ix2

/-- View construction after the walk (lines 209-216): a borrowed buffer
slice of size `_prod(view_shape)` at the accumulated offset, wrapped in a
new handle with the parent's dtype. -/
def buildView (a : CUDArray) (vs : List Int) (off : Int) : CUDArray :=
  CUDArray.init vs (some a.dtype) none
    (some (ArrayData.view a.data (listProd vs) a.dtype off)) 0

/-- `__getitem__` on an index sequence, producing a handle. -/
def CUDArray.getitemSeq (a : CUDArray) (ix : List Index) (fuel : Nat) :
    Option (Except Err CUDArray) :=
  match getitemLoop fuel a.shape ix with
  | none => none
  | some (.error e) => some (.error e)
  | some (.ok (vs, off)) => some (.ok (buildView a vs off))

/-- A whole index expression: a bare Python integer (fast path, line 156)
or a sequence of index elements (general path). -/
inductive IndexExpr where
  | single (i : Int)
  | seq (ix : List Index)
deriving DecidableEq

/-- `__getitem__` (lines 155-216), both entry paths. -/
def CUDArray.getitem (a : CUDArray) (idx : IndexExpr) (fuel : Nat) :
    Option (Except Err CUDArray) :=
  match idx with
  | .single i => some (.ok (a.getitemInt i))
  | .seq ix => a.getitemSeq ix fuel

/-- The externally issued `base.copyto(view, c)` call of `__setitem__`,
recorded as data: the target view and the source operand. -/
structure CopyEffect (σ : Type) where
  target : CUDArray
  source : σ
deriving DecidableEq

/-- `CUDArray.__setitem__` (lines 218-220): compute the view through
`__getitem__`, then issue `base.copyto(view, c)`. -/
def CUDArray.setitem {σ : Type} (a : CUDArray) (idx : IndexExpr) (c : σ) (fuel : Nat) :
    Option (Except Err (CopyEffect σ)) :=
  match a.getitem idx fuel with
  | none => none
  | some (.error e) => some (.error e)
  | some (.ok v) => some (.ok ⟨v, c⟩)

/-- A root handle freshly constructed from a shape and dtype. -/
def mkRoot (s : List Int) (d : Dtype) : CUDArray :=
  CUDArray.init s (some d) none none 0

/-! Specification-side definitions, written from the words of the claims:
per-dimension start, stop and view extent, the surviving output shape, the
accumulated linear offset, and the error conditions. -/

/-- The extent of dimension `i` of a shape. -/
def dimAt (s : List Int) (i : Nat) : Int := s[i]?.getD 0

/-- The claim's `start` for dimension `i`: the integer itself, `idx.start or
0` for a slice, and 0 for a dimension with no supplied index. -/
def specStart (ix : List Index) (_dim : Int) (i : Nat) : Int :=
  match ix[i]? with
  | some (.int j) => j
  | some (.slice st _ _) => st.getD 0
  | _ => 0

/-- The claim's `stop` for dimension `i`: `idx+1` for an integer,
`idx.stop or dim` for a slice, and `dim` for a dimension with no supplied
index. -/
def specStop (ix : List Index) (dim : Int) (i : Nat) : Int :=
  match ix[i]? with
  | some (.int j) => j + 1
  | some (.slice _ sp _) => sp.getD dim
  | _ => dim

/-- The claim's `view_dim = stop - start` for dimension `i`. -/
def specViewDim (s : List Int) (ix : List Index) (i : Nat) : Int :=
  specStop ix (dimAt s i) i - specStart ix (dimAt s i) i

/-- The output shape as the claim words it: the surviving `view_dim` values
in order, integer-indexed dimensions dropped. -/
def specShapeAux (ix : List Index) : List Int → Nat → List Int
  | [], _ => []
  | dim :: rest, i =>
    (match ix[i]? with
     | some (.int _) => []
     | _ => [specStop ix dim i - specStart ix dim i]) ++ specShapeAux ix rest (i + 1)

/-- The output shape for a whole shape. -/
def specShape (s : List Int) (ix : List Index) : List Int := specShapeAux ix s 0

/-- The linear offset as the claim words it: `offset = offset*dim + start`,
accumulated over all dimensions. -/
def specOffsetAux (ix : List Index) : List Int → Nat → Int → Int
  | [], _, off => off
  | dim :: rest, i, off => specOffsetAux ix rest (i + 1) (off * dim + specStart ix dim i)

/-- The accumulated linear offset for a whole shape. -/
def specOffset (s : List Int) (ix : List Index) : Int := specOffsetAux ix s 0 0

/-- Whether position `i` of the index sequence holds a slice. -/
def isSliceAt (ix : List Index) (i : Nat) : Bool :=
  match ix[i]? with
  | some (.slice _ _ _) => true
  | _ => false

/-- No ellipsis element occurs in the sequence. -/
def noEllipsis (ix : List Index) : Bool :=
  ix.all fun e => match e with | .ellipsis => false | _ => true

/-- No element outside integers, slices and ellipses occurs. -/
def noInvalid (ix : List Index) : Bool :=
  ix.all fun e => match e with | .invalid => false | _ => true

/-- No slice carries an explicit step. -/
def stepFree (ix : List Index) : Bool :=
  ix.all fun e => match e with | .slice _ _ stp => stp.isNone | _ => true

/-- A slice with an explicit step different from 1. -/
def nonUnitStep : Index → Bool
  | .slice _ _ (some st) => st != 1
  | _ => false

/-- Some slice of the sequence has an explicit non-unit step. -/
def hasNonUnitStep (ix : List Index) : Bool := ix.any nonUnitStep

/-- The contiguity error condition the code actually enforces, stated
existentially: some dimension has a proper partial view (`1 < view_dim <
dim`) while some earlier dimension already spanned more than one element
(`view_dim > 1`, be it a partial or a whole multi-element dimension). -/
abbrev contigErrCond (s : List Int) (ix : List Index) : Prop :=
  ∃ i ∈ List.range s.length, (∃ j ∈ List.range i, 1 < specViewDim s ix j) ∧
    1 < specViewDim s ix i ∧ specViewDim s ix i < dimAt s i

/-- The contiguity error condition as claim C1 states it: some earlier
dimension was a proper partial slice (`1 < view_dim < dim`) and a later
slice-indexed dimension does not take the whole dimension. -/
abbrev claimContigCond (s : List Int) (ix : List Index) : Prop :=
  ∃ i ∈ List.range s.length, isSliceAt ix i = true ∧ specViewDim s ix i ≠ dimAt s i ∧
    ∃ j ∈ List.range i, 1 < specViewDim s ix j ∧ specViewDim s ix j < dimAt s j

/-- The error the walk detects at dimension `i`, if any: an element that is
no index raises an indexing error there; a slice with an explicit step
raises an unsupported-operation error; otherwise a proper partial view
after an earlier multi-element dimension violates contiguity. -/
def errAt (s : List Int) (ix : List Index) (i : Nat) : Option Err :=
  match ix[i]? with
  | some .invalid => some .indexError
  | some .ellipsis => none
  | some (.int _) => none
  | some (.slice _ _ stp) =>
    if stp.isSome then some .notImplemented
    else if (∃ j ∈ List.range i, 1 < specViewDim s ix j) ∧
        1 < specViewDim s ix i ∧ specViewDim s ix i < dimAt s i then
      some .notImplemented
    else none
  | none => none

/-- First error over the dimensions from position `i` on. -/
def scanErr (s : List Int) (ix : List Index) : List Int → Nat → Option Err
  | [], _ => none
  | _ :: rest, i =>
    match errAt s ix i with
    | some e => some e
    | none => scanErr s ix rest (i + 1)

/-! Claim C4: the ellipsis expansion of line 193 keeps the ellipsis element
in the rebuilt sequence (`indices[i:]` starts at the ellipsis itself), so
the restarted evaluation meets it again, rebuilds the same sequence and
never terminates. -/

/-- The fixed point the ellipsis expansion reaches for shape `(4,5,6)` and
index `[..., 1]`. -/
def ellFix : List Index := [Index.slice none none none, Index.ellipsis, Index.int 1]

lemma getitemLoop_ellFix : ∀ fuel, getitemLoop fuel [4,5,6] ellFix = none := by
  intro fuel
  induction fuel with
  | zero => rfl
  | succ n ih =>
    have h1 : getitemLoop (n + 1) [4,5,6] ellFix = getitemLoop n [4,5,6] ellFix := rfl
    rw [h1]; exact ih

/-- Claim C4 (code bug): indexing shape `(4,5,6)` with `[..., 1]` never
terminates: the expansion inserts `ndim - k` full slices but keeps the
ellipsis, so evaluation restarts forever instead of returning the result of
the expanded sequence. -/
theorem ellipsis_indexing_diverges :
    ∀ fuel, getitemLoop fuel [4,5,6] [Index.ellipsis, Index.int 1] = none := by
  intro fuel
  cases fuel with
  | zero => rfl
  | succ n =>
    have h1 : getitemLoop (n + 1) [4,5,6] [Index.ellipsis, Index.int 1]
        = getitemLoop n [4,5,6] ellFix := rfl
    rw [h1]; exact getitemLoop_ellFix n

/-- Claim C3: for a legal shape `d :: rest` and `0 ≤ i < d`, the
single-integer fast path yields a view with shape `rest`, size
`product rest`, and offset `i * product rest` into the shared buffer. -/
theorem single_int_fastpath :
    ∀ (a : CUDArray) (i d : Int) (rest : List Int),
      a.shape = d :: rest → (∀ x ∈ a.shape, 0 ≤ x) → 0 ≤ i → i < d →
      (a.getitemInt i).shape = rest ∧
      (a.getitemInt i).size = listProd rest ∧
      (a.getitemInt i).data.size = listProd rest ∧
      (a.getitemInt i).data.offset = a.data.offset + i * listProd rest ∧
      (a.getitemInt i).data.bufferId = a.data.bufferId := by
  intro a i d rest hs _ _ _
  simp [CUDArray.getitemInt, CUDArray.init, ArrayData.view, CUDArray.size,
    CUDArray.dtype, hs]

/-- Witness for claim C3 at shape `(4,5,6)`, index 2. -/
theorem single_int_fastpath_witness :
    ((mkRoot [4,5,6] Dtype.floatCanonical).getitemInt 2).shape = [5,6] ∧
    ((mkRoot [4,5,6] Dtype.floatCanonical).getitemInt 2).size = listProd [5,6] ∧
    ((mkRoot [4,5,6] Dtype.floatCanonical).getitemInt 2).data.size = listProd [5,6] ∧
    ((mkRoot [4,5,6] Dtype.floatCanonical).getitemInt 2).data.offset
      = (mkRoot [4,5,6] Dtype.floatCanonical).data.offset + 2 * listProd [5,6] ∧
    ((mkRoot [4,5,6] Dtype.floatCanonical).getitemInt 2).data.bufferId
      = (mkRoot [4,5,6] Dtype.floatCanonical).data.bufferId :=
  single_int_fastpath (mkRoot [4,5,6] Dtype.floatCanonical) 2 4 [5,6] rfl
    (by decide) (by decide) (by decide)

/-- Claim C6: dtype inference and canonicalization at construction, and
boolean reinterpretation at materialization. -/
theorem dtype_normalization :
    ∀ (s : List Int) (fid : Nat),
      (CUDArray.init s none none none fid).dtype = Dtype.floatCanonical ∧
      (∀ hd : HostData,
        (CUDArray.init s none (some hd) none fid).dtype = (normalizeDtype hd.dtype).1 ∧
        (CUDArray.init s none (some hd) none fid).isbool = (normalizeDtype hd.dtype).2) ∧
      normalizeDtype Dtype.float64 = (Dtype.floatCanonical, false) ∧
      normalizeDtype Dtype.int64 = (Dtype.intCanonical, false) ∧
      normalizeDtype Dtype.boolean = (Dtype.boolStorage, true) ∧
      (∀ a : CUDArray, a.isbool = true → a.toHostKind = Dtype.boolean) ∧
      (CUDArray.init s none (some ⟨Dtype.boolean⟩) none fid).toHostKind = Dtype.boolean := by
  intro s fid
  refine ⟨rfl, fun hd => ⟨rfl, rfl⟩, rfl, rfl, rfl, fun a h => ?_, rfl⟩
  simp [CUDArray.toHostKind, h]

/-- Witness for claim C6: constructing from boolean host data and
materializing yields the boolean kind. -/
theorem dtype_normalization_witness :
    (CUDArray.init [2] none (some ⟨Dtype.boolean⟩) none 0).toHostKind = Dtype.boolean :=
  (dtype_normalization [2] 0).2.2.2.2.2.1
    (CUDArray.init [2] none (some ⟨Dtype.boolean⟩) none 0) rfl

/-- Claim C7: the write path computes the view through the read path's
algorithm and then issues the external copy; it propagates the read path's
errors identically and allocates no result of its own (the copy target is
the borrowed view itself). -/
theorem setitem_delegates :
    ∀ (σ : Type) (a : CUDArray) (idx : IndexExpr) (c : σ) (fuel : Nat),
      (∀ e, a.setitem idx c fuel = some (.error e) ↔
        a.getitem idx fuel = some (.error e)) ∧
      (∀ v, a.getitem idx fuel = some (.ok v) →
        a.setitem idx c fuel = some (.ok ⟨v, c⟩)) ∧
      (a.setitem idx c fuel = none ↔ a.getitem idx fuel = none) := by
  intro σ a idx c fuel
  cases hg : a.getitem idx fuel with
  | none => simp [CUDArray.setitem, hg]
  | some r =>
    cases r with
    | error e => simp [CUDArray.setitem, hg]
    | ok v => simp [CUDArray.setitem, hg]

/-- Witness for claim C7 on the fast path. -/
theorem setitem_delegates_witness :
    (mkRoot [3] Dtype.floatCanonical).setitem (.single 1) (0 : Nat) 1
      = some (.ok ⟨(mkRoot [3] Dtype.floatCanonical).getitemInt 1, 0⟩) :=
  (setitem_delegates Nat (mkRoot [3] Dtype.floatCanonical) (.single 1) 0 1).2.1
    ((mkRoot [3] Dtype.floatCanonical).getitemInt 1) rfl

/-- Claim C8: `view()` returns a handle with the original's shape and
dtype, borrowing the very same buffer reference at the same offset (the
buffer record is identical, so mutations through either are mutations of
the same storage, and nothing is allocated). -/
theorem view_shares_buffer :
    ∀ a : CUDArray, (a.view).shape = a.shape ∧ (a.view).dtype = a.dtype ∧
      (a.view).data = a.data ∧ (a.view).data.bufferId = a.data.bufferId ∧
      (a.view).data.offset = a.data.offset :=
  fun _ => ⟨rfl, rfl, rfl, rfl, rfl⟩

/-- Claim C10: handles derived from a logical-boolean handle by `view()` or
by indexing carry the boolean storage dtype, not the boolean dtype, so
their flag is clear and they materialize to the storage kind. -/
theorem derived_handles_lose_bool_flag :
    ∀ a : CUDArray, a.isbool = true → a.dtype = Dtype.boolStorage →
      ((a.view).isbool = false ∧ (a.view).toHostKind = Dtype.boolStorage) ∧
      (∀ i : Int, (a.getitemInt i).isbool = false ∧
        (a.getitemInt i).toHostKind = Dtype.boolStorage) ∧
      (∀ (ix : List Index) (fuel : Nat) (v : CUDArray),
        a.getitemSeq ix fuel = some (.ok v) →
        v.isbool = false ∧ v.toHostKind = Dtype.boolStorage) := by
  intro a _ hdt
  have hdd : a.data.dtype = Dtype.boolStorage := hdt
  refine ⟨?_, ?_, ?_⟩
  · constructor
    · simp [CUDArray.view, CUDArray.init, CUDArray.dtype, hdd, normalizeDtype]
    · simp [CUDArray.view, CUDArray.init, CUDArray.dtype, CUDArray.toHostKind,
        hdd, normalizeDtype]
  · intro i
    constructor
    · simp [CUDArray.getitemInt, CUDArray.init, CUDArray.dtype, hdd, normalizeDtype]
    · simp [CUDArray.getitemInt, CUDArray.init, CUDArray.dtype, CUDArray.toHostKind,
        ArrayData.view, hdd, normalizeDtype]
  · intro ix fuel v hv
    unfold CUDArray.getitemSeq at hv
    cases hl : getitemLoop fuel a.shape ix with
    | none => rw [hl] at hv; exact absurd hv (by simp)
    | some r =>
      rw [hl] at hv
      cases r with
      | error e => exact absurd hv (by simp)
      | ok p =>
        have hvb : v = buildView a p.1 p.2 := by
          cases p; simp at hv; exact hv.symm
        subst hvb
        constructor
        · simp [buildView, CUDArray.init, CUDArray.dtype, hdd, normalizeDtype]
        · simp [buildView, CUDArray.init, CUDArray.dtype, CUDArray.toHostKind,
            ArrayData.view, hdd, normalizeDtype]

/-- Witness for claim C10: a handle built from boolean host data satisfies
the hypotheses, and its plain view has the flag clear. -/
theorem derived_handles_lose_bool_flag_witness :
    ((CUDArray.init [2] none (some ⟨Dtype.boolean⟩) none 0).view).isbool = false :=
  (derived_handles_lose_bool_flag (CUDArray.init [2] none (some ⟨Dtype.boolean⟩) none 0)
    rfl rfl).1.1

/-! Lemmas about the dimension walk. -/

lemma foldl_mul_shift : ∀ (t : List Int) (a : Int), t.foldl (· * ·) a = a * t.foldl (· * ·) 1 := by
  intro t
  induction t with
  | nil => intro a; simp
  | cons b t ih =>
    intro a
    simp only [List.foldl]
    rw [ih (a * b), ih (1 * b)]
    ring

lemma listProd_cons (d : Int) (t : List Int) : listProd (d :: t) = d * listProd t := by
  simp only [listProd, List.foldl]
  rw [foldl_mul_shift t (1 * d)]
  ring

/-- If the walk finishes, the view shape and offset are exactly the
claim-side `specShapeAux`/`specOffsetAux` fold over the remaining
dimensions. -/
lemma walk_spec (ix : List Index) (ndim : Nat) :
    ∀ (rest : List Int) (i : Nat) (acc : List Int) (contig : Bool) (off : Int)
      (vs : List Int) (off2 : Int),
      walkFrom ix ndim rest i acc contig off = .done vs off2 →
      vs = acc ++ specShapeAux ix rest i ∧ off2 = specOffsetAux ix rest i off := by
  intro rest
  induction rest with
  | nil =>
    intro i acc contig off vs off2 h
    simp only [walkFrom, StepOut.done.injEq] at h
    simp [specShapeAux, specOffsetAux, h.1.symm, h.2.symm]
  | cons dim rest ih =>
    intro i acc contig off vs off2 h
    cases hg : ix[i]? with
    | none =>
      simp only [walkFrom, dimStep, hg] at h
      split at h
      · exact absurd h (by simp)
      · obtain ⟨h1, h2⟩ := ih _ _ _ _ _ _ h
        refine ⟨?_, ?_⟩
        · rw [h1]; simp [specShapeAux, specStart, specStop, hg, List.append_assoc]
        · rw [h2]; simp [specOffsetAux, specStart, hg]
    | some idx =>
      cases idx with
      | int j =>
        simp only [walkFrom, dimStep, hg] at h
        split at h
        · exact absurd h (by simp)
        · obtain ⟨h1, h2⟩ := ih _ _ _ _ _ _ h
          refine ⟨?_, ?_⟩
          · rw [h1]; simp [specShapeAux, hg]
          · rw [h2]; simp [specOffsetAux, specStart, hg]
      | slice st sp stp =>
        cases stp with
        | some s0 =>
          simp only [walkFrom, dimStep, hg, Option.isSome_some, if_true] at h
          exact absurd h (by simp)
        | none =>
          simp only [walkFrom, dimStep, hg, Option.isSome_none, Bool.false_eq_true,
            if_false] at h
          split at h
          · exact absurd h (by simp)
          · obtain ⟨h1, h2⟩ := ih _ _ _ _ _ _ h
            refine ⟨?_, ?_⟩
            · rw [h1]; simp [specShapeAux, specStart, specStop, hg, List.append_assoc]
            · rw [h2]; simp [specOffsetAux, specStart, hg]
      | ellipsis =>
        simp only [walkFrom, dimStep, hg] at h
        exact absurd h (by simp)
      | invalid =>
        simp only [walkFrom, dimStep, hg] at h
        exact absurd h (by simp)

/-- A walk over an ellipsis-free sequence never restarts. -/
lemma walk_noRestart (ix : List Index) (hne : noEllipsis ix = true) (ndim : Nat) :
    ∀ (rest : List Int) (i : Nat) (acc : List Int) (contig : Bool) (off : Int)
      (ix2 : List Index),
      walkFrom ix ndim rest i acc contig off ≠ .restart ix2 := by
  intro rest
  induction rest with
  | nil => intro i acc contig off ix2; simp [walkFrom]
  | cons dim rest ih =>
    intro i acc contig off ix2 h
    cases hg : ix[i]? with
    | none =>
      simp only [walkFrom, dimStep, hg] at h
      split at h
      · exact absurd h (by simp)
      · exact ih _ _ _ _ _ h
    | some idx =>
      cases idx with
      | int j =>
        simp only [walkFrom, dimStep, hg] at h
        split at h
        · exact absurd h (by simp)
        · exact ih _ _ _ _ _ h
      | slice st sp stp =>
        cases stp with
        | some s0 =>
          simp only [walkFrom, dimStep, hg, Option.isSome_some, if_true] at h
          exact absurd h (by simp)
        | none =>
          simp only [walkFrom, dimStep, hg, Option.isSome_none, Bool.false_eq_true,
            if_false] at h
          split at h
          · exact absurd h (by simp)
          · exact ih _ _ _ _ _ h
      | ellipsis =>
        have hmem : Index.ellipsis ∈ ix := List.getElem?_mem hg
        have := List.all_eq_true.mp hne _ hmem
        simp at this
      | invalid =>
        simp only [walkFrom, dimStep, hg] at h
        exact absurd h (by simp)

/-- Beyond the end of the index sequence every dimension is taken whole:
the walk finishes, appending the remaining dimensions and multiplying the
offset through. -/
lemma walk_pastEnd (ix : List Index) (ndim : Nat) :
    ∀ (rest : List Int) (i : Nat) (acc : List Int) (contig : Bool) (off : Int),
      ix.length ≤ i →
      walkFrom ix ndim rest i acc contig off = .done (acc ++ rest) (off * listProd rest) := by
  intro rest
  induction rest with
  | nil =>
    intro i acc contig off _
    simp [walkFrom, listProd]
  | cons dim rest ih =>
    intro i acc contig off h
    have hg : ix[i]? = none := List.getElem?_eq_none h
    simp only [walkFrom, dimStep, hg]
    rw [if_neg (by rintro ⟨_, _, h3⟩; omega)]
    simp only [if_true]
    rw [ih (i + 1) (acc ++ [dim - 0]) _ _ (by omega)]
    rw [listProd_cons]
    have e1 : acc ++ [dim - 0] ++ rest = acc ++ dim :: rest := by
      rw [List.append_assoc]; norm_num
    have e2 : (off * dim + 0) * listProd rest = off * (dim * listProd rest) := by ring
    rw [e1, e2]

/-- An accepted general-path indexing comes from a finished walk. -/
lemma loop_ok_walk (s : List Int) (ix : List Index) (fuel : Nat) (vs : List Int) (off : Int)
    (hne : noEllipsis ix = true)
    (h : getitemLoop (fuel + 1) s ix = some (.ok (vs, off))) :
    walkFrom ix s.length s 0 [] false 0 = .done vs off := by
  simp only [getitemLoop] at h
  by_cases hlen : ix.length > s.length
  · rw [if_pos hlen] at h; exact absurd h (by simp)
  · rw [if_neg hlen] at h
    cases hw : walkFrom ix s.length s 0 [] false 0 with
    | done vs2 off2 =>
      rw [hw] at h
      simp only [Option.some.injEq, Except.ok.injEq, Prod.mk.injEq] at h
      rw [h.1, h.2]
    | err e => rw [hw] at h; exact absurd h (by simp)
    | restart ix2 => exact absurd hw (walk_noRestart ix hne s.length s 0 [] false 0 ix2)

/-- Claim C2: an index sequence accepted by the general path yields a
borrowed view whose shape is the surviving view extents in order, whose
size is their product, and whose offset is the row-major accumulation
`offset = offset*dim + start` over all dimensions. -/
theorem general_path_view_spec :
    ∀ (a : CUDArray) (ix : List Index) (fuel : Nat) (v : CUDArray),
      noEllipsis ix = true →
      a.getitemSeq ix (fuel + 1) = some (.ok v) →
      v.shape = specShape a.shape ix ∧
      v.size = listProd (specShape a.shape ix) ∧
      v.data.size = listProd (specShape a.shape ix) ∧
      v.data.offset = a.data.offset + specOffset a.shape ix ∧
      v.data.bufferId = a.data.bufferId ∧
      v.data.owned = false := by
  intro a ix fuel v hne hv
  unfold CUDArray.getitemSeq at hv
  cases hl : getitemLoop (fuel + 1) a.shape ix with
  | none => rw [hl] at hv; exact absurd hv (by simp)
  | some r =>
    rw [hl] at hv
    cases r with
    | error e => exact absurd hv (by simp)
    | ok p =>
      obtain ⟨vs, off⟩ := p
      simp only [Option.some.injEq, Except.ok.injEq] at hv
      have hw := loop_ok_walk a.shape ix fuel vs off hne hl
      obtain ⟨h1, h2⟩ := walk_spec ix a.shape.length a.shape 0 [] false 0 vs off hw
      have hb1 : (buildView a vs off).shape = vs := rfl
      have hb2 : (buildView a vs off).size = listProd vs := rfl
      have hb3 : (buildView a vs off).data.size = listProd vs := rfl
      have hb4 : (buildView a vs off).data.offset = a.data.offset + off := rfl
      have hb5 : (buildView a vs off).data.bufferId = a.data.bufferId := rfl
      have hb6 : (buildView a vs off).data.owned = false := rfl
      rw [← hv]
      refine ⟨?_, ?_, ?_, ?_, hb5, hb6⟩
      · rw [hb1, h1]; simp [specShape]
      · rw [hb2, h1]; simp [specShape]
      · rw [hb3, h1]; simp [specShape]
      · rw [hb4, h2]; simp [specOffset]

/-- Witness for claim C2 at shape `(4,5,6)` with index `[1, 1:3, :]`. -/
theorem general_path_view_spec_witness :
    (buildView (mkRoot [4,5,6] Dtype.floatCanonical) [2,6] 36).shape
      = specShape [4,5,6]
        [Index.int 1, Index.slice (some 1) (some 3) none, Index.slice none none none] ∧
    (buildView (mkRoot [4,5,6] Dtype.floatCanonical) [2,6] 36).size
      = listProd (specShape [4,5,6]
        [Index.int 1, Index.slice (some 1) (some 3) none, Index.slice none none none]) ∧
    (buildView (mkRoot [4,5,6] Dtype.floatCanonical) [2,6] 36).data.size
      = listProd (specShape [4,5,6]
        [Index.int 1, Index.slice (some 1) (some 3) none, Index.slice none none none]) ∧
    (buildView (mkRoot [4,5,6] Dtype.floatCanonical) [2,6] 36).data.offset
      = (mkRoot [4,5,6] Dtype.floatCanonical).data.offset
        + specOffset [4,5,6]
          [Index.int 1, Index.slice (some 1) (some 3) none, Index.slice none none none] ∧
    (buildView (mkRoot [4,5,6] Dtype.floatCanonical) [2,6] 36).data.bufferId
      = (mkRoot [4,5,6] Dtype.floatCanonical).data.bufferId ∧
    (buildView (mkRoot [4,5,6] Dtype.floatCanonical) [2,6] 36).data.owned = false :=
  general_path_view_spec (mkRoot [4,5,6] Dtype.floatCanonical)
    [Index.int 1, Index.slice (some 1) (some 3) none, Index.slice none none none] 0
    (buildView (mkRoot [4,5,6] Dtype.floatCanonical) [2,6] 36) rfl rfl

/-- Claim C9: no bounds validation anywhere.  The fast path returns a view
for every integer, negative or past the extent, with offset
`i * product(shape[1:])`; a slice with arbitrary start and stop as the sole
index element is accepted by the general path; and the resulting view's
offset and size can exceed the parent buffer's extent (offset 15 plus size
3 against a parent of size 6, and a negative offset). -/
theorem no_bounds_validation :
    (∀ (a : CUDArray) (i : Int) (fuel : Nat),
      a.getitem (.single i) fuel = some (.ok (a.getitemInt i)) ∧
      (a.getitemInt i).shape = a.shape.tail ∧
      (a.getitemInt i).data.offset = a.data.offset + i * listProd a.shape.tail ∧
      (a.getitemInt i).data.size = listProd a.shape.tail) ∧
    (∀ (s : List Int) (d : Int) (rest : List Int) (st sp : Option Int) (fuel : Nat),
      s = d :: rest →
      getitemLoop (fuel + 1) s [Index.slice st sp none]
        = some (.ok ((sp.getD d - st.getD 0) :: rest, st.getD 0 * listProd rest))) ∧
    (((mkRoot [2,3] Dtype.floatCanonical).getitemInt 5).data.offset = 15 ∧
      (mkRoot [2,3] Dtype.floatCanonical).data.size = 6 ∧
      ((mkRoot [2,3] Dtype.floatCanonical).getitemInt 5).data.size = 3 ∧
      ((mkRoot [2,3] Dtype.floatCanonical).getitemInt (-1)).data.offset = -3) := by
  refine ⟨?_, ?_, by decide⟩
  · intro a i fuel
    exact ⟨rfl, rfl, rfl, rfl⟩
  · intro s d rest st sp fuel hs
    subst hs
    simp only [getitemLoop]
    rw [if_neg (by simp)]
    have hstep : walkFrom [Index.slice st sp none] (d :: rest).length (d :: rest) 0 [] false 0
        = .done ([sp.getD d - st.getD 0] ++ rest) ((0 * d + st.getD 0) * listProd rest) := by
      simp only [walkFrom, dimStep, List.getElem?_cons_zero, Option.isSome_none,
        Bool.false_eq_true, if_false]
      rw [if_neg (by rintro ⟨hc, _⟩; exact absurd hc (by simp))]
      exact walk_pastEnd [Index.slice st sp none] (d :: rest).length rest 1
        ([] ++ [sp.getD d - st.getD 0]) _ _ (by simp)
    rw [hstep]
    have e1 : [sp.getD d - st.getD 0] ++ rest = (sp.getD d - st.getD 0) :: rest := rfl
    have e2 : (0 * d + st.getD 0) * listProd rest = st.getD 0 * listProd rest := by ring
    rw [e1, e2]

/-- Witness for claim C9: an out-of-range slice on shape `(4)` is accepted,
yielding extent 102 at offset -3. -/
theorem no_bounds_validation_witness :
    getitemLoop 1 [4] [Index.slice (some (-3)) (some 99) none]
      = some (.ok ([(102 : Int)], (-3 : Int))) :=
  no_bounds_validation.2.1 [4] 4 [] (some (-3)) (some 99) 0 rfl

/-- The walk agrees with the first-violation scan: over an ellipsis-free
sequence it raises exactly the first per-dimension error found by `errAt`,
and finishes when there is none.  The `contig` flag is seeded by the
invariant that it says some earlier dimension spans more than one
element. -/
lemma walk_scan (s : List Int) (ix : List Index) (hne : noEllipsis ix = true) :
    ∀ (rest : List Int) (i : Nat) (acc : List Int) (contig : Bool) (off : Int),
      (∀ m, s[i + m]? = rest[m]?) →
      (contig = true ↔ ∃ j ∈ List.range i, 1 < specViewDim s ix j) →
      (∃ e, walkFrom ix s.length rest i acc contig off = .err e ∧
        scanErr s ix rest i = some e) ∨
      (∃ vs off2, walkFrom ix s.length rest i acc contig off = .done vs off2 ∧
        scanErr s ix rest i = none) := by
  intro rest
  induction rest with
  | nil => intro i acc contig off _ _; exact Or.inr ⟨acc, off, rfl, rfl⟩
  | cons dim rest ih =>
    intro i acc contig off hrest hcontig
    have hdim : dimAt s i = dim := by
      have h0 := hrest 0
      rw [Nat.add_zero, List.getElem?_cons_zero] at h0
      simp [dimAt, h0]
    have hrest2 : ∀ m, s[i + 1 + m]? = rest[m]? := by
      intro m
      have h1 := hrest (m + 1)
      rw [List.getElem?_cons_succ] at h1
      rw [show i + (m + 1) = i + 1 + m by omega] at h1
      exact h1
    cases hg : ix[i]? with
    | none =>
      have hvd : specViewDim s ix i = dim := by
        simp [specViewDim, specStop, specStart, hg, hdim]
      have herr : errAt s ix i = none := by simp [errAt, hg]
      simp only [walkFrom, dimStep, hg, scanErr, herr]
      rw [if_neg (by rintro ⟨_, _, h3⟩; omega)]
      have hcontig2 : (contig || decide (1 < dim - 0)) = true ↔
          ∃ j ∈ List.range (i + 1), 1 < specViewDim s ix j := by
        rw [Bool.or_eq_true, decide_eq_true_eq, hcontig]
        constructor
        · rintro (⟨j, hj, hpj⟩ | hdlt)
          · rw [List.mem_range] at hj
            exact ⟨j, List.mem_range.mpr (by omega), hpj⟩
          · exact ⟨i, List.mem_range.mpr (by omega), by rw [hvd]; omega⟩
        · rintro ⟨j, hj, hpj⟩
          rw [List.mem_range] at hj
          by_cases hji : j = i
          · subst hji; rw [hvd] at hpj; omega
          · exact Or.inl ⟨j, List.mem_range.mpr (by omega), hpj⟩
      exact ih (i + 1) _ _ _ hrest2 hcontig2
    | some idx =>
      cases idx with
      | int j =>
        have hvd : specViewDim s ix i = 1 := by
          simp only [specViewDim, specStop, specStart, hg]; omega
        have herr : errAt s ix i = none := by simp [errAt, hg]
        simp only [walkFrom, dimStep, hg, scanErr, herr]
        rw [if_neg (by rintro ⟨_, h2, _⟩; omega)]
        have hcontig2 : (contig || decide (1 < j + 1 - j)) = true ↔
            ∃ k ∈ List.range (i + 1), 1 < specViewDim s ix k := by
          rw [Bool.or_eq_true, decide_eq_true_eq, hcontig]
          constructor
          · rintro (⟨k, hk, hpk⟩ | hdlt)
            · rw [List.mem_range] at hk
              exact ⟨k, List.mem_range.mpr (by omega), hpk⟩
            · omega
          · rintro ⟨k, hk, hpk⟩
            rw [List.mem_range] at hk
            by_cases hki : k = i
            · subst hki; rw [hvd] at hpk; omega
            · exact Or.inl ⟨k, List.mem_range.mpr (by omega), hpk⟩
        exact ih (i + 1) _ _ _ hrest2 hcontig2
      | slice st sp stp =>
        cases stp with
        | some s0 =>
          left
          refine ⟨.notImplemented, ?_, ?_⟩
          · simp [walkFrom, dimStep, hg]
          · simp [scanErr, errAt, hg]
        | none =>
          have hvd : specViewDim s ix i = sp.getD dim - st.getD 0 := by
            simp [specViewDim, specStop, specStart, hg, hdim]
          by_cases hC : contig = true ∧ 1 < sp.getD dim - st.getD 0 ∧
              sp.getD dim - st.getD 0 < dim
          · left
            refine ⟨.notImplemented, ?_, ?_⟩
            · simp only [walkFrom, dimStep, hg, Option.isSome_none, Bool.false_eq_true,
                if_false]
              rw [if_pos hC]
            · have herr : errAt s ix i = some .notImplemented := by
                simp only [errAt, hg, Option.isSome_none, Bool.false_eq_true, if_false]
                rw [if_pos ⟨hcontig.mp hC.1, by rw [hvd]; exact hC.2.1,
                  by rw [hvd, hdim]; exact hC.2.2⟩]
              simp [scanErr, herr]
          · have herr : errAt s ix i = none := by
              simp only [errAt, hg, Option.isSome_none, Bool.false_eq_true, if_false]
              rw [if_neg ?hcond]
              case hcond =>
                rintro ⟨hex, h1, h2⟩
                rw [hvd] at h1
                rw [hvd, hdim] at h2
                exact hC ⟨hcontig.mpr hex, h1, h2⟩
            simp only [walkFrom, dimStep, hg, Option.isSome_none, Bool.false_eq_true,
              if_false, scanErr, herr]
            rw [if_neg hC]
            have hcontig2 : (contig || decide (1 < sp.getD dim - st.getD 0)) = true ↔
                ∃ j ∈ List.range (i + 1), 1 < specViewDim s ix j := by
              rw [Bool.or_eq_true, decide_eq_true_eq, hcontig]
              constructor
              · rintro (⟨j, hj, hpj⟩ | hdlt)
                · rw [List.mem_range] at hj
                  exact ⟨j, List.mem_range.mpr (by omega), hpj⟩
                · exact ⟨i, List.mem_range.mpr (by omega), by rw [hvd]; omega⟩
              · rintro ⟨j, hj, hpj⟩
                rw [List.mem_range] at hj
                by_cases hji : j = i
                · subst hji; right; rw [hvd] at hpj; omega
                · exact Or.inl ⟨j, List.mem_range.mpr (by omega), hpj⟩
            exact ih (i + 1) _ _ _ hrest2 hcontig2
      | ellipsis =>
        have hmem : Index.ellipsis ∈ ix := List.getElem?_mem hg
        have := List.all_eq_true.mp hne _ hmem
        simp at this
      | invalid =>
        left
        refine ⟨.indexError, ?_, ?_⟩
        · simp [walkFrom, dimStep, hg]
        · simp [scanErr, errAt, hg]

/-- The scan yields no error exactly when no dimension carries one. -/
lemma scanErr_eq_none (s : List Int) (ix : List Index) :
    ∀ (rest : List Int) (i : Nat),
      scanErr s ix rest i = none ↔
        ∀ m ∈ List.range rest.length, errAt s ix (i + m) = none := by
  intro rest
  induction rest with
  | nil => intro i; simp [scanErr]
  | cons dim rest ih =>
    intro i
    cases he : errAt s ix i with
    | some e =>
      simp only [scanErr, he]
      constructor
      · intro h; cases h
      · intro h
        have h0 := h 0 (List.mem_range.mpr (by simp))
        rw [Nat.add_zero, he] at h0
        cases h0
    | none =>
      simp only [scanErr, he]
      rw [ih (i + 1)]
      constructor
      · intro h m hm
        have hm2 : m < rest.length + 1 := by simpa using hm
        cases m with
        | zero => rw [Nat.add_zero]; exact he
        | succ m2 =>
          have := h m2 (List.mem_range.mpr (by omega))
          rw [show i + (m2 + 1) = i + 1 + m2 by omega]
          exact this
      · intro h m hm
        have hm2 : m < rest.length := by simpa using hm
        have := h (m + 1) (List.mem_range.mpr (by simp; omega))
        rw [show i + (m + 1) = i + 1 + m by omega] at this
        exact this

/-- The scan yields error `e` exactly when the first dimension carrying an
error carries `e`. -/
lemma scanErr_eq_some (s : List Int) (ix : List Index) :
    ∀ (rest : List Int) (i : Nat) (e : Err),
      scanErr s ix rest i = some e ↔
        ∃ m ∈ List.range rest.length, errAt s ix (i + m) = some e ∧
          ∀ k ∈ List.range m, errAt s ix (i + k) = none := by
  intro rest
  induction rest with
  | nil => intro i e; simp [scanErr]
  | cons dim rest ih =>
    intro i e
    cases he : errAt s ix i with
    | some e0 =>
      simp only [scanErr, he]
      constructor
      · intro h
        injection h with h
        subst h
        exact ⟨0, List.mem_range.mpr (by simp), by rw [Nat.add_zero]; exact he, by simp⟩
      · rintro ⟨m, hm, hsome, hmin⟩
        cases m with
        | zero =>
          rw [Nat.add_zero, he] at hsome
          injection hsome with h
          rw [h]
        | succ m2 =>
          have h0 := hmin 0 (List.mem_range.mpr (by simp))
          rw [Nat.add_zero, he] at h0
          cases h0
    | none =>
      simp only [scanErr, he]
      rw [ih (i + 1) e]
      constructor
      · rintro ⟨m, hm, hsome, hmin⟩
        have hm2 : m < rest.length := by simpa using hm
        refine ⟨m + 1, List.mem_range.mpr (by simp; omega), ?_, ?_⟩
        · rw [show i + (m + 1) = i + 1 + m by omega]; exact hsome
        · intro k hk
          have hk2 : k < m + 1 := by simpa using hk
          cases k with
          | zero => rw [Nat.add_zero]; exact he
          | succ k2 =>
            have := hmin k2 (List.mem_range.mpr (by omega))
            rw [show i + (k2 + 1) = i + 1 + k2 by omega]
            exact this
      · rintro ⟨m, hm, hsome, hmin⟩
        have hm2 : m < rest.length + 1 := by simpa using hm
        cases m with
        | zero =>
          rw [Nat.add_zero, he] at hsome
          cases hsome
        | succ m2 =>
          refine ⟨m2, List.mem_range.mpr (by omega), ?_, ?_⟩
          · rw [show i + 1 + m2 = i + (m2 + 1) by omega]; exact hsome
          · intro k hk
            have hk2 : k < m2 := by simpa using hk
            have := hmin (k + 1) (List.mem_range.mpr (by omega))
            rw [show i + (k + 1) = i + 1 + k by omega] at this
            exact this

/-- Whole-call version of `walk_scan`: within the length bound, the general
path raises exactly the first per-dimension error and finishes otherwise. -/
lemma loop_scan (s : List Int) (ix : List Index) (fuel : Nat)
    (hne : noEllipsis ix = true) (hlen : ix.length ≤ s.length) :
    (∃ e, getitemLoop (fuel + 1) s ix = some (.error e) ∧ scanErr s ix s 0 = some e) ∨
    (∃ vs off, getitemLoop (fuel + 1) s ix = some (.ok (vs, off)) ∧
      scanErr s ix s 0 = none) := by
  have hwalk := walk_scan s ix hne s 0 [] false 0 (fun m => by rw [Nat.zero_add]) (by simp)
  rcases hwalk with ⟨e, hw, hs2⟩ | ⟨vs, off, hw, hs2⟩
  · left
    refine ⟨e, ?_, hs2⟩
    simp only [getitemLoop]
    rw [if_neg (by omega), hw]
  · right
    refine ⟨vs, off, ?_, hs2⟩
    simp only [getitemLoop]
    rw [if_neg (by omega), hw]

/-- Over a sequence without invalid elements and step-bearing slices, a
per-dimension error is the contiguity error, with its exact condition. -/
lemma errAt_some_char (s : List Int) (ix : List Index)
    (hinv : noInvalid ix = true) (hstep : stepFree ix = true) :
    ∀ (n : Nat) (e : Err), errAt s ix n = some e →
      e = .notImplemented ∧ (∃ j ∈ List.range n, 1 < specViewDim s ix j) ∧
        1 < specViewDim s ix n ∧ specViewDim s ix n < dimAt s n := by
  intro n e h
  cases hg : ix[n]? with
  | none => simp only [errAt, hg] at h; exact absurd h (by simp)
  | some idx =>
    cases idx with
    | int j => simp only [errAt, hg] at h; exact absurd h (by simp)
    | ellipsis => simp only [errAt, hg] at h; exact absurd h (by simp)
    | invalid =>
      have hmem := List.getElem?_mem hg
      have := List.all_eq_true.mp hinv _ hmem
      simp at this
    | slice st sp stp =>
      have hstp : stp = none := by
        have hmem := List.getElem?_mem hg
        have h2 := List.all_eq_true.mp hstep _ hmem
        simpa [Option.isNone_iff_eq_none] using h2
      subst hstp
      simp only [errAt, hg, Option.isSome_none, Bool.false_eq_true, if_false] at h
      split at h
      · rename_i hc
        injection h with h
        exact ⟨h.symm, hc.1, hc.2.1, hc.2.2⟩
      · cases h

/-- Conversely, the contiguity condition at a dimension forces the
per-dimension error there. -/
lemma errAt_of_cond (s : List Int) (ix : List Index)
    (hne : noEllipsis ix = true) (hinv : noInvalid ix = true) (hstep : stepFree ix = true) :
    ∀ n : Nat, (∃ j ∈ List.range n, 1 < specViewDim s ix j) →
      1 < specViewDim s ix n → specViewDim s ix n < dimAt s n →
      errAt s ix n = some .notImplemented := by
  intro n hex h1 h2
  cases hg : ix[n]? with
  | none =>
    have hvd : specViewDim s ix n = dimAt s n := by
      simp [specViewDim, specStop, specStart, hg]
    rw [hvd] at h2
    omega
  | some idx =>
    cases idx with
    | int j =>
      have hvd : specViewDim s ix n = 1 := by
        simp only [specViewDim, specStop, specStart, hg]; omega
      rw [hvd] at h1
      omega
    | ellipsis =>
      have hmem := List.getElem?_mem hg
      have := List.all_eq_true.mp hne _ hmem
      simp at this
    | invalid =>
      have hmem := List.getElem?_mem hg
      have := List.all_eq_true.mp hinv _ hmem
      simp at this
    | slice st sp stp =>
      have hstp : stp = none := by
        have hmem := List.getElem?_mem hg
        have h3 := List.all_eq_true.mp hstep _ hmem
        simpa [Option.isNone_iff_eq_none] using h3
      subst hstp
      simp only [errAt, hg, Option.isSome_none, Bool.false_eq_true, if_false]
      rw [if_pos ⟨hex, h1, h2⟩]

/-- Claim C1 (amended): the contiguity check raises exactly when some
dimension has a proper partial view (`1 < view_dim < dim`) while some
earlier dimension already spans more than one element (`view_dim > 1` -
whether a proper partial slice or a whole multi-element dimension); when
that condition fails the general path succeeds. -/
theorem contiguity_check_characterization :
    ∀ (s : List Int) (ix : List Index) (fuel : Nat),
      noEllipsis ix = true → noInvalid ix = true → stepFree ix = true →
      ix.length ≤ s.length →
      ((getitemLoop (fuel + 1) s ix = some (.error .notImplemented)) ↔
        contigErrCond s ix) ∧
      (¬ contigErrCond s ix →
        ∃ vs off, getitemLoop (fuel + 1) s ix = some (.ok (vs, off))) := by
  intro s ix fuel hne hinv hstep hlen
  have hls := loop_scan s ix fuel hne hlen
  constructor
  · constructor
    · intro hl
      rcases hls with ⟨e0, hl0, hs0⟩ | ⟨vs, off, hl0, hs0⟩
      · rw [hl0] at hl
        have he0 : e0 = .notImplemented := by simpa using hl
        subst he0
        obtain ⟨m, hm, hsome, _⟩ := (scanErr_eq_some s ix s 0 .notImplemented).mp hs0
        rw [Nat.zero_add] at hsome
        obtain ⟨_, hex, h1, h2⟩ := errAt_some_char s ix hinv hstep m .notImplemented hsome
        exact ⟨m, hm, hex, h1, h2⟩
      · rw [hl0] at hl
        exact absurd hl (by simp)
    · intro hc
      obtain ⟨m, hm, hex, h1, h2⟩ := hc
      have herr := errAt_of_cond s ix hne hinv hstep m hex h1 h2
      rcases hls with ⟨e0, hl0, hs0⟩ | ⟨vs, off, hl0, hs0⟩
      · obtain ⟨m2, hm2, hsome2, _⟩ := (scanErr_eq_some s ix s 0 e0).mp hs0
        rw [Nat.zero_add] at hsome2
        obtain ⟨he0, _, _, _⟩ := errAt_some_char s ix hinv hstep m2 e0 hsome2
        subst he0
        exact hl0
      · have hall := (scanErr_eq_none s ix s 0).mp hs0
        have hcontra := hall m hm
        rw [Nat.zero_add, herr] at hcontra
        cases hcontra
  · intro hnc
    rcases hls with ⟨e0, hl0, hs0⟩ | ⟨vs, off, hl0, hs0⟩
    · obtain ⟨m, hm, hsome, _⟩ := (scanErr_eq_some s ix s 0 e0).mp hs0
      rw [Nat.zero_add] at hsome
      obtain ⟨_, hex, h1, h2⟩ := errAt_some_char s ix hinv hstep m e0 hsome
      exact absurd ⟨m, hm, hex, h1, h2⟩ hnc
    · exact ⟨vs, off, hl0⟩

/-- Counterexample to claim C1 as stated: for shape `(4,5,6)` and index
`[:, :, 2:4]` no earlier processed dimension is a proper partial slice, so
by the claim's criterion the expression is legal - yet the code raises the
unsupported-operation error, because the flag is set by any dimension with
`view_dim > 1`, including a whole multi-element dimension. -/
theorem contiguity_claim_false_on_trailing_slice :
    ¬ ((getitemLoop 1 [4,5,6] [Index.slice none none none, Index.slice none none none,
          Index.slice (some 2) (some 4) none] = some (.error .notImplemented)) ↔
        claimContigCond [4,5,6] [Index.slice none none none, Index.slice none none none,
          Index.slice (some 2) (some 4) none]) :=
  fun h => absurd (h.mp rfl) (by decide)

/-- Witness for claim C1: `handle[1:3, :, 2:4]` on shape `(4,5,6)` raises
the unsupported-operation error. -/
theorem contiguity_check_characterization_witness :
    getitemLoop 1 [4,5,6] [Index.slice (some 1) (some 3) none, Index.slice none none none,
      Index.slice (some 2) (some 4) none] = some (.error .notImplemented) :=
  ((contiguity_check_characterization [4,5,6]
    [Index.slice (some 1) (some 3) none, Index.slice none none none,
      Index.slice (some 2) (some 4) none] 0 rfl rfl rfl (by decide)).1).mpr (by decide)

/-- Claim C5 (amended): too many indices raise the indexing error before
the walk, whatever the sequence holds.  Otherwise, over an ellipsis-free
sequence, the general path raises exactly the first per-dimension
violation in walk order - an element that is no index raises the indexing
error, a slice with any explicit step (unit steps included) raises the
unsupported-operation error, a contiguity violation raises the
unsupported-operation error - and succeeds exactly when no dimension
carries a violation.  Errors are decided by this walk alone, before any
buffer operation: an error result carries no view. -/
theorem error_conditions_first_violation :
    ∀ (s : List Int) (ix : List Index) (fuel : Nat),
      (ix.length > s.length →
        getitemLoop (fuel + 1) s ix = some (.error .indexError)) ∧
      (noEllipsis ix = true → ix.length ≤ s.length →
        (∀ e, getitemLoop (fuel + 1) s ix = some (.error e) ↔
          ∃ m ∈ List.range s.length, errAt s ix m = some e ∧
            ∀ k ∈ List.range m, errAt s ix k = none) ∧
        ((∃ vs off, getitemLoop (fuel + 1) s ix = some (.ok (vs, off))) ↔
          ∀ m ∈ List.range s.length, errAt s ix m = none)) := by
  intro s ix fuel
  constructor
  · intro hlen
    simp only [getitemLoop]
    rw [if_pos hlen]
  · intro hne hlen
    have hls := loop_scan s ix fuel hne hlen
    constructor
    · intro e
      constructor
      · intro hl
        rcases hls with ⟨e0, hl0, hs0⟩ | ⟨vs, off, hl0, hs0⟩
        · rw [hl0] at hl
          have he0 : e0 = e := by simpa using hl
          subst he0
          have := (scanErr_eq_some s ix s 0 e0).mp hs0
          simpa using this
        · rw [hl0] at hl
          exact absurd hl (by simp)
      · intro hex
        have hsome : scanErr s ix s 0 = some e := by
          apply (scanErr_eq_some s ix s 0 e).mpr
          simpa using hex
        rcases hls with ⟨e0, hl0, hs0⟩ | ⟨vs, off, hl0, hs0⟩
        · rw [hs0] at hsome
          injection hsome with h
          rw [← h]
          exact hl0
        · rw [hs0] at hsome
          cases hsome
    · constructor
      · rintro ⟨vs, off, hl⟩
        rcases hls with ⟨e0, hl0, hs0⟩ | ⟨vs0, off0, hl0, hs0⟩
        · rw [hl0] at hl
          exact absurd hl (by simp)
        · have := (scanErr_eq_none s ix s 0).mp hs0
          simpa using this
      · intro hall
        have hnone : scanErr s ix s 0 = none := by
          apply (scanErr_eq_none s ix s 0).mpr
          simpa using hall
        rcases hls with ⟨e0, hl0, hs0⟩ | ⟨vs0, off0, hl0, hs0⟩
        · rw [hs0] at hnone
          cases hnone
        · exact ⟨vs0, off0, hl0⟩

/-- Counterexample to claim C5 as stated: the slice `0:2:1` carries a unit
step, which the claim says is accepted, and violates no contiguity rule -
yet the code raises the unsupported-operation error, because line 188
rejects any explicitly given step (`idx.step is not None`), unit or not. -/
theorem unit_step_slice_rejected :
    ¬ ((getitemLoop 1 [4] [Index.slice (some 0) (some 2) (some 1)]
        = some (.error .notImplemented)) ↔
      (hasNonUnitStep [Index.slice (some 0) (some 2) (some 1)] = true ∨
        contigErrCond [4] [Index.slice (some 0) (some 2) (some 1)])) :=
  fun h => absurd (h.mp rfl) (by decide)

/-- Witness for claim C5: `handle[0,1,2]` on shape `(3,4)` has too many
indices and raises the indexing error. -/
theorem error_conditions_first_violation_witness :
    getitemLoop 1 [3,4] [Index.int 0, Index.int 1, Index.int 2]
      = some (.error .indexError) :=
  (error_conditions_first_violation [3,4] [Index.int 0, Index.int 1, Index.int 2] 0).1
    (by decide)

end CudArray
